import Mathlib

/-!
Verification of the normalization and deduplication core of the
Ai-Tools-Pipeline repository (src/pipeline/silver_normalize.py and
src/pipeline/gold_dedupe.py), as a shallow embedding in Lean 4.

Modelling conventions, fixed once here:
* Python strings are Lean String / List Char; machine text operations
  (strip, lower, replace) are modelled over the ASCII range, which is the
  range the pipeline data and all claims exercise.
* pandas null cells (None / NaN) are one constructor Cell.null.  Where
  Python str() renders a null, the model uses the pandas rendering "nan"
  (for a whole missing column Python renders "None"; both are non-empty
  strings, which is all any claim observes).
* pandas DataFrame.dropna keeps every row whose subset cells are non-null.
  In normalize_one it runs after astype(str), when the name column holds
  only strings and never a null, so it is modelled as the identity it is.
* pandas groupby (default dropna=True) silently discards rows whose group
  key contains a null; the gold-stage model reproduces that.
* python dict preserves first-insertion key order and set/sorted are
  modelled by first-occurrence dedup followed by a code-point sort.
-/

/- ---------------------------------------------------------------- -/
/- Generic character and list helpers                               -/
/- ---------------------------------------------------------------- -/

/-- Python str.strip() whitespace set (ASCII part). -/
def isPyWs (c : Char) : Bool :=
  c = ' ' || c = '\t' || c = '\n' || c = '\r' || c = Char.ofNat 11 || c = Char.ofNat 12

def lstripBy (p : Char → Bool) (s : List Char) : List Char := s.dropWhile p

def rstripBy (p : Char → Bool) (s : List Char) : List Char :=
  (s.reverse.dropWhile p).reverse

def stripBy (p : Char → Bool) (s : List Char) : List Char :=
  rstripBy p (lstripBy p s)

/-- Python str.strip() with no argument. -/
def pyStrip (s : List Char) : List Char := stripBy isPyWs s

/-- ASCII lower-casing, as Python str.lower() acts on the data in scope. -/
def lowerChar (c : Char) : Char :=
  if 'A' ≤ c && c ≤ 'Z' then Char.ofNat (c.toNat + 32) else c

def lowerList (s : List Char) : List Char := s.map lowerChar

def lowerStr (s : String) : String := String.mk (lowerList s.toList)

/-- Code-point comparison used to model Python string ordering. -/
def charLtB (a b : Char) : Bool := a.toNat < b.toNat

/-- Lexicographic code-point order on character lists (Python string le). -/
def listLeB : List Char → List Char → Bool
  | [], _ => true
  | _ :: _, [] => false
  | a :: as, b :: bs =>
    if charLtB a b then true
    else if charLtB b a then false
    else listLeB as bs

def strLeB (s t : String) : Bool := listLeB s.toList t.toList

/-- Insert into a le-sorted list, keeping earlier elements on ties. -/
def insertSorted (le : α → α → Bool) (a : α) : List α → List α
  | [] => [a]
  | b :: bs => if le a b then a :: b :: bs else b :: insertSorted le a bs

/-- Insertion sort; on duplicate-free input it agrees with Python sorted(). -/
def sortByB (le : α → α → Bool) : List α → List α
  | [] => []
  | a :: as => insertSorted le a (sortByB le as)

/-- Accumulator pass of first-occurrence deduplication. -/
def dedupFirstAux [DecidableEq α] (seen : List α) : List α → List α
  | [] => []
  | a :: as => if a ∈ seen then dedupFirstAux seen as else a :: dedupFirstAux (seen ++ [a]) as

/-- First-occurrence deduplication: the key order of a Python dict, and the
underlying content of a Python set. -/
def dedupFirst [DecidableEq α] (l : List α) : List α := dedupFirstAux [] l

/-- Python sorted(set(l)) for strings. -/
def sortedSet (l : List String) : List String := sortByB strLeB (dedupFirst l)

/- ---------------------------------------------------------------- -/
/- canonical_url (silver_normalize.py lines 128-136)                 -/
/- ---------------------------------------------------------------- -/

def httpPat : List Char := ['h', 't', 't', 'p', ':', '/', '/']

def httpsRep : List Char := ['h', 't', 't', 'p', 's', ':', '/', '/']

/-- Fuel-indexed scanner behind replHttp; the fuel only forces structural
recursion and is irrelevant once it covers the list length. -/
def replHttpF : Nat → List Char → List Char
  | _, [] => []
  | 0, _ :: _ => []
  | f + 1, c :: cs =>
    if httpPat.isPrefixOf (c :: cs) then httpsRep ++ replHttpF f (cs.drop 6)
    else c :: replHttpF f cs

/-- Python str.replace("http:/\x2f", "https:/\x2f"): replaces every
non-overlapping occurrence, scanning left to right. -/
def replHttp (s : List Char) : List Char := replHttpF s.length s

/-- Occurrence check: does the scheme pattern occur anywhere in s. -/
def hasPat : List Char → Bool
  | [] => false
  | c :: cs => httpPat.isPrefixOf (c :: cs) || hasPat cs

/-- Eligibility of a re-match of ".*$" against a suffix: dot does not cross
a newline and the dollar anchors at the end or just before a final newline. -/
def noNlButLast (xs : List Char) : Bool := !(xs.dropLast.contains '\n')

def endsNl (xs : List Char) : Bool := xs.getLast? == some '\n'

/-- Python re.sub(r"X.*$", "", s) for a single anchor character X (the code
uses X equal to the hash and the question mark): removes from the leftmost
eligible X through the end, keeping a final newline the dollar skipped. -/
def subToEnd (c : Char) : List Char → List Char
  | [] => []
  | x :: xs =>
    if x = c ∧ noNlButLast xs = true then (if endsNl xs = true then ['\n'] else [])
    else x :: subToEnd c xs

/-- Python str.rstrip("/"): removes every trailing slash. -/
def rstripSlash (s : List Char) : List Char := rstripBy (fun c => c = '/') s

/-- The non-null branch of canonical_url on already-stripped text. -/
def canonPipe (t : List Char) : List Char :=
  rstripSlash (subToEnd '?' (subToEnd '#' (replHttp t)))

/-- canonical_url for a string cell value (silver_normalize.py 128-136):
None when blank after stripping, otherwise the cleaning pipeline. -/
def canonicalUrl (u : String) : Option String :=
  if pyStrip u.toList = [] then none
  else some (String.mk (canonPipe (pyStrip u.toList)))

/-- canonical_url lifted to an optional input: Python returns None on any
non-string input, in particular on None itself. -/
def canonicalUrlO : Option String → Option String
  | none => none
  | some s => canonicalUrl s

/-- Truncation at the first occurrence of a character, the plain reading of
the words strip any fragment and strip any query string. -/
def specCutAt (c : Char) (s : List Char) : List Char :=
  s.takeWhile (fun x => !(x == c))

/-- Replacement of the scheme only, the reading the claim gives: http at the
front becomes https, occurrences elsewhere are untouched. -/
def specSchemeOnly (s : List Char) : List Char :=
  if httpPat.isPrefixOf s then httpsRep ++ s.drop 7 else s

/-- Removal of exactly one trailing slash, as the claim words it. -/
def specDropOneSlash (s : List Char) : List Char :=
  if s.getLast? = some '/' then s.dropLast else s

/-- The URL normalization algorithm exactly as claim C4 words it: trim
whitespace, replace only the scheme prefix, remove the fragment and the
query, remove exactly one trailing slash. -/
def specCanonicalUrl (u : String) : String :=
  String.mk (specDropOneSlash (specCutAt '?' (specCutAt '#'
    (specSchemeOnly (pyStrip u.toList)))))

/-- The amended description of canonical_url: trim, replace every occurrence
of the insecure scheme substring anywhere in the string, truncate at the
first hash then at the first question mark, drop every trailing slash;
blank-after-trim input maps to absent. -/
def specCanonicalUrlAmended (u : String) : Option String :=
  if pyStrip u.toList = [] then none
  else some (String.mk (rstripSlash (specCutAt '?' (specCutAt '#'
    (replHttp (pyStrip u.toList))))))

/- ---------------------------------------------------------------- -/
/- Category Normalizer (silver_normalize.py 46-109 and 181-196)      -/
/- ---------------------------------------------------------------- -/

/-- Single-character delimiters of the SPLIT regex: the char class with
comma, slash, pipe, semicolon, plus both bullet glyphs (the escaped pipe
and the u2022 alternative repeat characters already present). -/
def delimChar (c : Char) : Bool :=
  c == ',' || c == '/' || c == '|' || c == ';' || c == '·' || c == '•'

/-- Case-insensitive comparison against a lowercase letter, re.I style. -/
def lowEq (c target : Char) : Bool := lowerChar c == target

/-- The five-character delimiter word (space a n d space) at the head of
the list, case-insensitive in its letters. -/
def isAndPrefix : List Char → Bool
  | c0 :: c1 :: c2 :: c3 :: c4 :: _ =>
    c0 == ' ' && lowEq c1 'a' && lowEq c2 'n' && lowEq c3 'd' && c4 == ' '
  | _ => false

/-- Some position in the list opens the five-character delimiter word. -/
def hasAndOcc : List Char → Bool
  | [] => false
  | c :: cs => isAndPrefix (c :: cs) || hasAndOcc cs

/-- Fuel-indexed splitter scan; fuel only forces structural recursion. -/
def splitAuxF : Nat → List Char → List Char → List (List Char)
  | _, acc, [] => [acc.reverse]
  | 0, acc, _ :: _ => [acc.reverse]
  | f + 1, acc, c :: cs =>
    if delimChar c then acc.reverse :: splitAuxF f [] cs
    else if isAndPrefix (c :: cs) then acc.reverse :: splitAuxF f [] (cs.drop 4)
    else splitAuxF f (c :: acc) cs

/-- Splitter scan from a given open piece. -/
def splitA (acc s : List Char) : List (List Char) := splitAuxF s.length acc s

/-- re.split over the SPLIT regex: the pieces between delimiter matches,
empty pieces included, scanning left to right. -/
def splitTokens (s : List Char) : List (List Char) := splitA [] s

/-- Run-collapsing scan: a maximal whitespace run becomes one space. -/
def collapseWsAux : Bool → List Char → List Char
  | _, [] => []
  | inRun, c :: cs =>
    if isPyWs c then
      (if inRun then collapseWsAux true cs else ' ' :: collapseWsAux true cs)
    else c :: collapseWsAux false cs

/-- Python re.sub of one or more whitespace with a single space. -/
def collapseWs (s : List Char) : List Char := collapseWsAux false s

/-- The strip set of clean_token: space, dash, underscore. -/
def isDashPunct (c : Char) : Bool := c == ' ' || c == '-' || c == '_'

/-- clean_token (silver_normalize.py 69-73): strip, lowercase, collapse
internal whitespace, then strip space dash underscore from both ends. -/
def cleanToken (s : List Char) : List Char :=
  stripBy isDashPunct (collapseWs (lowerList (pyStrip s)))

def cleanTokenStr (s : String) : String := String.mk (cleanToken s.toList)

/-- CANON_MAP (silver_normalize.py 46-63), entries in source order. -/
def canonMap : List (String × List String) :=
  [("image generation",
      ["image", "image tool", "image generator", "text-to-image", "t2i", "graphics", "art"]),
   ("image editing",
      ["photo", "image edit", "upscaler", "image enhancer", "removal", "background remover"]),
   ("writing", ["copywriting", "content writing", "blog", "seo writing", "story"]),
   ("chatbot", ["chat", "assistant", "conversational ai"]),
   ("summarization", ["summary", "summarizer"]),
   ("code", ["developer", "programming", "coding", "code generation"]),
   ("code assistant", ["code assistant", "pair programmer", "copilot"]),
   ("audio", ["music", "voice", "speech", "tts", "stt"]),
   ("video", ["video editing", "video generator"]),
   ("search", ["research", "web search"]),
   ("agents", ["agent", "autonomous agent", "workflow", "automation"])]

def canonNames : List String := canonMap.map (fun p => p.1)

/-- REVERSE (line 65): synonym to canonical name.  The synonym sets are
pairwise disjoint, so the dict comprehension order is immaterial. -/
def revLookup (tok : String) : Option String :=
  (canonMap.find? (fun p => decide (tok ∈ p.2))).map (fun p => p.1)

/-- One loop step of feed (lines 88-101) on an already-cleaned token,
threading the seen dict keys and the unknown list. -/
def feedTok (st : List String × List String) (tok : String) : List String × List String :=
  if tok = "" then st
  else
    match revLookup tok with
    | some canon => (if canon ∈ st.1 then st.1 else st.1 ++ [canon], st.2)
    | none =>
      if tok ∈ canonNames then (if tok ∈ st.1 then st.1 else st.1 ++ [tok], st.2)
      else (st.1, st.2 ++ [tok])

def feedTokens : List String → List String × List String → List String × List String
  | [], st => st
  | t :: ts, st => feedTokens ts (feedTok st t)

/-- Python comma-space join of a list of strings. -/
def joinComma : List String → List Char
  | [] => []
  | [x] => x.toList
  | x :: y :: rest => x.toList ++ ',' :: ' ' :: joinComma (y :: rest)

/-- feed (lines 84-105) on one raw collection: join with comma-space,
split on the delimiter regex, clean each piece, classify. -/
def feedRaw (candidates : List String) (st : List String × List String) :
    List String × List String :=
  feedTokens ((splitTokens (joinComma candidates)).map (fun p => String.mk (cleanToken p))) st

/-- normalize_categories_for_row (lines 75-109): canonical categories
sorted, unknown tokens deduplicated and sorted. -/
def normalizeCategoriesForRow (candidates alsoFromTags : List String) :
    List String × List String :=
  let st := feedRaw alsoFromTags (feedRaw candidates ([], []))
  (sortByB strLeB st.1, sortedSet st.2)

/-- The category and tag repair of norm_row (lines 181-194) on the already
listified categories and tags of one row: fallback category when nothing
mapped, unknown tokens unioned into tags. -/
def normRowPair (catsRaw tagsRaw : List String) : List String × List String :=
  let res := normalizeCategoriesForRow catsRaw tagsRaw
  ((if res.1 = [] then ["uncategorized"] else res.1), sortedSet (tagsRaw ++ res.2))

/- ---------------------------------------------------------------- -/
/- Silver normalization (silver_normalize.py 30-38, 114-126, 154-217)-/
/- ---------------------------------------------------------------- -/

/-- One pandas cell as the pipeline meets it: a missing value, a string, a
list of strings, or a boolean. -/
inductive Cell
  | null
  | s (v : String)
  | lst (vs : List String)
  | b (v : Bool)
deriving DecidableEq

/-- The apostrophe character, written by code point. -/
def quoteChar : Char := Char.ofNat 39

def pyReprItems : List String → List Char
  | [] => []
  | [x] => quoteChar :: (x.toList ++ [quoteChar])
  | x :: y :: rest =>
    (quoteChar :: (x.toList ++ [quoteChar])) ++ ',' :: ' ' :: pyReprItems (y :: rest)

/-- Python str() of a cell, the astype(str) rendering: a missing value
renders as the non-empty pandas string nan, booleans capitalize, lists
render in bracket form. -/
def pyStr : Cell → String
  | Cell.null => "nan"
  | Cell.s v => v
  | Cell.lst vs => String.mk ('[' :: (pyReprItems vs ++ [']']))
  | Cell.b v => if v then "True" else "False"

/-- Python str.split on a comma: pieces between commas, empties kept. -/
def splitCommaAux (acc : List Char) : List Char → List (List Char)
  | [] => [acc.reverse]
  | c :: cs =>
    if c = ',' then acc.reverse :: splitCommaAux [] cs else splitCommaAux (c :: acc) cs

/-- listify (silver_normalize.py 138-149): null to empty, list values
stripped with empties dropped, scalar strings split on commas. -/
def listify : Cell → List String
  | Cell.null => []
  | Cell.lst vs =>
    (vs.map (fun v => String.mk (pyStrip v.toList))).filter (fun v => v ≠ "")
  | Cell.s v =>
    ((splitCommaAux [] v.toList).map (fun p => String.mk (pyStrip p))).filter
      (fun v => v ≠ "")
  | Cell.b v =>
    [if v then "True" else "False"]

/-- The boolean coercion of normalize_one (lines 177-178): stringify,
lowercase, compare with the truthy token set. -/
def truthyCell (c : Cell) : Bool :=
  decide (lowerStr (pyStr c) ∈ (["true", "1", "yes", "y"] : List String))

/- The alias table (lines 30-38), values already lowercase. -/

def aliasesName : List String := ["name", "tool", "title", "tool_name"]

def aliasesUrl : List String := ["url", "website", "link", "homepage"]

def aliasesDescription : List String := ["description", "desc", "summary", "about", "bio"]

def aliasesTags : List String := ["tags", "keywords", "labels"]

def aliasesCategories : List String := ["category", "categories", "group", "section"]

def aliasesHasApi : List String := ["api", "has_api", "provides_api"]

def aliasesHasFree : List String := ["free", "has_free", "freemium"]

/-- Substring test of Python in for strings. -/
def isSubstr (pat : List Char) : List Char → Bool
  | [] => pat.isEmpty
  | c :: cs => pat.isPrefixOf (c :: cs) || isSubstr pat cs

/-- Python dict update: an existing key keeps its position, its value is
overwritten; a new key is appended. -/
def updateAssoc (m : List (String × String)) (k v : String) : List (String × String) :=
  if (m.lookup k).isSome then m.map (fun p => if p.1 = k then (k, v) else p)
  else m ++ [(k, v)]

/-- The lowercased-column dict of pick (line 116). -/
def buildLowerMap (cols : List String) : List (String × String) :=
  cols.foldl (fun m c => updateAssoc m (lowerStr c) c) []

/-- pick (silver_normalize.py 114-126): exact alias match first, then a
substring pass over the dict in insertion order. -/
def pick (cols : List String) (keys : List String) : Option String :=
  let m := buildLowerMap cols
  match keys.findSome? (fun k => m.lookup k) with
  | some c => some c
  | none =>
    keys.findSome? (fun k =>
      (m.find? (fun p => isSubstr k.toList p.1.toList)).map (fun p => p.2))

/-- The silver record schema (and, with source ignored, the shape the gold
stage reads back from parquet, where any scalar can be null). -/
structure SilverRec where
  name : Option String
  url : Option String
  description : Option String
  tags : List String
  categories : List String
  hasApi : Bool
  hasFree : Bool
  domain : Option String
  source : String
deriving DecidableEq

/-- One raw input row: source-defined column names to cell values. -/
structure RawRow where
  cells : List (String × Cell)
deriving DecidableEq

/-- One source table: its column names and its rows. -/
structure Frame where
  cols : List String
  rows : List RawRow
deriving DecidableEq

def getCell (r : RawRow) (c : String) : Cell :=
  match r.cells.lookup c with
  | some v => v
  | none => Cell.null

/-- normalize_one (silver_normalize.py 154-204), parametric over the
tldextract registered-domain function, which is an external library.
pandas note: the final dropna(subset name) runs after astype(str) has
turned every null in the name column into the string nan or None, so it
matches no nulls and keeps every row; it is therefore the identity here,
and a row whose name cell was blank or missing survives with an empty or
placeholder name. -/
def normalizeOne (registeredDomain : String → String) (df : Frame)
    (sourceName : String) : List SilverRec :=
  let mName := pick df.cols aliasesName
  let mUrl := pick df.cols aliasesUrl
  let mDescription := pick df.cols aliasesDescription
  let mTags := pick df.cols aliasesTags
  let mCategories := pick df.cols aliasesCategories
  let mApi := pick df.cols aliasesHasApi
  let mFree := pick df.cols aliasesHasFree
  df.rows.map (fun row =>
    let nameV : String := match mName with
      | some c => String.mk (pyStrip (pyStr (getCell row c)).toList)
      | none => "None"
    let urlV : Option String := match mUrl with
      | some c =>
        match getCell row c with
        | Cell.s v => canonicalUrl v
        | _ => none
      | none => none
    let descV : String := match mDescription with
      | some c => String.mk (pyStrip (pyStr (getCell row c)).toList)
      | none => "None"
    let tagsRaw : List String := match mTags with
      | some c => listify (getCell row c)
      | none => []
    let catsRaw : List String := match mCategories with
      | some c => listify (getCell row c)
      | none => []
    let apiV : Bool := match mApi with
      | some c => truthyCell (getCell row c)
      | none => false
    let freeV : Bool := match mFree with
      | some c => truthyCell (getCell row c)
      | none => false
    let pair := normRowPair catsRaw tagsRaw
    let domainV : Option String := match urlV with
      | some u => if u ≠ "" then some (registeredDomain u) else none
      | none => none
    { name := some nameV, url := urlV, description := some descV,
      tags := pair.2, categories := pair.1, hasApi := apiV, hasFree := freeV,
      domain := domainV, source := sourceName })

/- ---------------------------------------------------------------- -/
/- Gold dedupe (gold_dedupe.py 24-82)                                -/
/- ---------------------------------------------------------------- -/

/-- The gold record schema: the silver shape with source dropped. -/
structure GoldRec where
  name : Option String
  url : Option String
  description : Option String
  tags : List String
  categories : List String
  hasApi : Bool
  hasFree : Bool
  domain : Option String
deriving DecidableEq

/-- flatten_unique (gold_dedupe.py 24-30): union the lists, drop strings
blank after stripping, sort the set. -/
def flattenUnique (ls : List (List String)) : List String :=
  sortedSet ((ls.flatten).filter (fun v => String.mk (pyStrip v.toList) ≠ ""))

/-- Python max with the length key: the first element of maximal length. -/
def maxByLenFirst (c0 : String) (cs : List String) : String :=
  cs.foldl (fun best x => if x.length > best.length then x else best) c0

/-- pick_longest_str (gold_dedupe.py 32-39): the longest string that is
non-blank after stripping, earliest on ties; otherwise the first non-null
value; otherwise null. -/
def pickLongest (l : List (Option String)) : Option String :=
  match l.filterMap (fun o =>
    match o with
    | some v => if String.mk (pyStrip v.toList) ≠ "" then some v else none
    | none => none) with
  | [] => l.findSome? id
  | c :: cs => some (maxByLenFirst c cs)

/-- first_non_null (gold_dedupe.py 41-43). -/
def firstNonNull (l : List (Option String)) : Option String := l.findSome? id

/-- agg_group (gold_dedupe.py 45-56): the per-field merge policies. -/
def aggGroup (g : List SilverRec) : GoldRec :=
  { name := pickLongest (g.map (fun r => r.name)),
    url := firstNonNull (g.map (fun r => r.url)),
    description := pickLongest (g.map (fun r => r.description)),
    tags := flattenUnique (g.map (fun r => r.tags)),
    categories := flattenUnique (g.map (fun r => r.categories)),
    hasApi := g.any (fun r => r.hasApi),
    hasFree := g.any (fun r => r.hasFree),
    domain := firstNonNull (g.map (fun r => r.domain)) }

/-- Lexicographic order on the (domain, name) fallback keys, the order
pandas sorts a two-level group key in. -/
def pairLeB (a b : String × String) : Bool :=
  if strLeB a.1 b.1 && strLeB b.1 a.1 then strLeB a.2 b.2 else strLeB a.1 b.1

/-- run (gold_dedupe.py 58-82) after reading: split rows by url presence,
group the url partition by url and the rest by the (domain, name) pair,
aggregate each group, concatenate.  pandas note: groupby with its default
dropna discards every row whose group key contains a null, so url-less
rows with a null domain or name fall out of the output entirely. -/
def goldRun (rows : List SilverRec) : List GoldRec :=
  let withUrl := rows.filter (fun r => r.url.isSome)
  let noUrl := rows.filter (fun r => r.url.isNone)
  let keys1 := sortByB strLeB (dedupFirst (withUrl.filterMap (fun r => r.url)))
  let g1 := keys1.map (fun k => aggGroup (withUrl.filter (fun r => r.url == some k)))
  let keys2 := sortByB pairLeB (dedupFirst (noUrl.filterMap (fun r =>
      match r.domain, r.name with
      | some d, some n => some (d, n)
      | _, _ => none)))
  let g2 := keys2.map (fun k =>
      aggGroup (noUrl.filter (fun r => r.domain == some k.1 && r.name == some k.2)))
  g1 ++ g2

/-- Outcome of one pipeline stage: what was written, and whether an error
was reported to the log. -/
structure StageOutcome (α : Type) where
  written : Option α
  errorReported : Bool
deriving DecidableEq

/-- The gold stage entry (gold_dedupe.py 58-62): with no silver files it
logs an error and returns before writing; otherwise it writes one output. -/
def goldStage (files : List (List SilverRec)) : StageOutcome (List GoldRec) :=
  if files = [] then { written := none, errorReported := true }
  else { written := some (goldRun files.flatten), errorReported := false }

/-- Outcome of the silver stage: per-file outputs and error reporting. -/
structure SilverStageOutcome where
  written : List (String × List SilverRec)
  errorReported : Bool
deriving DecidableEq

/-- The silver stage entry (silver_normalize.py 209-217): one output per
bronze file; there is no emptiness check and no error path, so an empty
input yields no writes and a success log. -/
def silverStage (registeredDomain : String → String)
    (files : List (String × Frame)) : SilverStageOutcome :=
  { written := files.map (fun f => (f.1, normalizeOne registeredDomain f.2 f.1)),
    errorReported := false }

/- ================================================================ -/
/- End of definitions; theorems follow                               -/
/- ================================================================ -/

theorem replHttpF_fuel : ∀ (f g : Nat) (s : List Char),
    s.length ≤ f → s.length ≤ g → replHttpF f s = replHttpF g s := by
  intro f
  induction f with
  | zero =>
    intro g s hf _
    cases s with
    | nil => cases g <;> rfl
    | cons c cs => simp at hf
  | succ f ih =>
    intro g s hf hg
    cases s with
    | nil => cases g <;> rfl
    | cons c cs =>
      cases g with
      | zero => simp at hg
      | succ g =>
        simp only [List.length_cons] at hf hg
        simp only [replHttpF]
        by_cases h : httpPat.isPrefixOf (c :: cs) = true
        · have hlen : (cs.drop 6).length ≤ f := by
            simp only [List.length_drop]; omega
          have hlen2 : (cs.drop 6).length ≤ g := by
            simp only [List.length_drop]; omega
          rw [if_pos h, if_pos h, ih g (cs.drop 6) hlen hlen2]
        · rw [if_neg h, if_neg h, ih g cs (by omega) (by omega)]

theorem replHttp_nil : replHttp [] = [] := rfl

theorem replHttp_pre {c : Char} {cs : List Char}
    (h : httpPat.isPrefixOf (c :: cs) = true) :
    replHttp (c :: cs) = httpsRep ++ replHttp (cs.drop 6) := by
  have h0 : replHttp (c :: cs) = replHttpF (cs.length + 1) (c :: cs) := rfl
  rw [h0]
  simp only [replHttpF, if_pos h]
  congr 1
  exact replHttpF_fuel cs.length (cs.drop 6).length (cs.drop 6)
    (by simp only [List.length_drop]; omega) le_rfl

theorem replHttp_not_pre {c : Char} {cs : List Char}
    (h : ¬ httpPat.isPrefixOf (c :: cs) = true) :
    replHttp (c :: cs) = c :: replHttp cs := by
  have h0 : replHttp (c :: cs) = replHttpF (cs.length + 1) (c :: cs) := rfl
  rw [h0]
  simp only [replHttpF, if_neg h]
  rfl

example : canonicalUrl "http://example.com/page?x=1#top" = some "https://example.com/page" := by decide
example : canonicalUrl "https://example.com/page/" = some "https://example.com/page" := by decide
example : canonicalUrl "   " = none := by decide
example : canonicalUrl "#x" = some "" := by decide
example : canonicalUrl "a #b" = some "a " := by decide
example : canonicalUrl "https://a.com//" = some "https://a.com" := by decide
example : canonicalUrl "https://a.com/xhttp://y" = some "https://a.com/xhttps://y" := by decide
example : subToEnd '#' "x#a\nb#c".toList = "x#a\nb".toList := by decide
example : subToEnd '#' "x#ab\n".toList = "x\n".toList := by decide

/- Pattern analysis: replHttp never leaves an occurrence of the scheme
pattern in its output, which drives idempotence of canonical_url. -/

theorem replHttp_no_new (n : Nat) : ∀ s : List Char, s.length ≤ n →
    (List.isPrefixOf ['t','t','p',':','/','/'] (replHttp s) = true →
      List.isPrefixOf ['t','t','p',':','/','/'] s = true) ∧
    (List.isPrefixOf ['t','p',':','/','/'] (replHttp s) = true →
      List.isPrefixOf ['t','p',':','/','/'] s = true) ∧
    (List.isPrefixOf ['p',':','/','/'] (replHttp s) = true →
      List.isPrefixOf ['p',':','/','/'] s = true) ∧
    (List.isPrefixOf [':','/','/'] (replHttp s) = true →
      List.isPrefixOf [':','/','/'] s = true) ∧
    (List.isPrefixOf ['/','/'] (replHttp s) = true →
      List.isPrefixOf ['/','/'] s = true) ∧
    (List.isPrefixOf ['/'] (replHttp s) = true →
      List.isPrefixOf ['/'] s = true) := by
  induction n with
  | zero =>
    intro s hs
    have : s = [] := List.eq_nil_of_length_eq_zero (Nat.le_zero.mp hs)
    subst this
    refine ⟨?_, ?_, ?_, ?_, ?_, ?_⟩ <;> exact fun hx => nomatch hx
  | succ n ih =>
    intro s hs
    cases s with
    | nil =>
      refine ⟨?_, ?_, ?_, ?_, ?_, ?_⟩ <;> exact fun hx => nomatch hx
    | cons c cs =>
      simp only [List.length_cons] at hs
      by_cases hp : httpPat.isPrefixOf (c :: cs) = true
      · rw [replHttp_pre hp]
        refine ⟨?_, ?_, ?_, ?_, ?_, ?_⟩ <;> exact fun hx => nomatch hx
      · rw [replHttp_not_pre hp]
        have IH := ih cs (by omega)
        refine ⟨?_, ?_, ?_, ?_, ?_, ?_⟩ <;>
          · intro hx
            simp only [List.isPrefixOf, Bool.and_eq_true] at hx ⊢
            exact ⟨hx.1, by
              first
              | exact IH.2.1 hx.2
              | exact IH.2.2.1 hx.2
              | exact IH.2.2.2.1 hx.2
              | exact IH.2.2.2.2.1 hx.2
              | exact IH.2.2.2.2.2 hx.2
              | trivial⟩

theorem hasPat_rep_append (R : List Char) : hasPat (httpsRep ++ R) = hasPat R := rfl

theorem hasPat_iff (s : List Char) : hasPat s = true ↔ httpPat <:+: s := by
  induction s with
  | nil =>
    simp only [hasPat, List.infix_nil, httpPat]
    simp
  | cons c cs ih =>
    simp only [hasPat, Bool.or_eq_true, ih, List.infix_cons_iff,
      List.isPrefixOf_iff_prefix]

theorem hasPat_replHttp (n : Nat) : ∀ s : List Char, s.length ≤ n →
    hasPat (replHttp s) = false := by
  induction n with
  | zero =>
    intro s hs
    have : s = [] := List.eq_nil_of_length_eq_zero (Nat.le_zero.mp hs)
    subst this; rfl
  | succ n ih =>
    intro s hs
    cases s with
    | nil => rfl
    | cons c cs =>
      simp only [List.length_cons] at hs
      by_cases hp : httpPat.isPrefixOf (c :: cs) = true
      · rw [replHttp_pre hp, hasPat_rep_append]
        exact ih (cs.drop 6) (by simp only [List.length_drop]; omega)
      · rw [replHttp_not_pre hp]
        simp only [hasPat, Bool.or_eq_false_iff]
        constructor
        · by_contra hcon
          have hx : httpPat.isPrefixOf (c :: replHttp cs) = true := by
            cases h : httpPat.isPrefixOf (c :: replHttp cs)
            · exact absurd h hcon
            · rfl
          simp only [httpPat, List.isPrefixOf, Bool.and_eq_true] at hx
          have htail := (replHttp_no_new n cs (by omega)).1 hx.2
          have : httpPat.isPrefixOf (c :: cs) = true := by
            simp only [httpPat, List.isPrefixOf, Bool.and_eq_true]
            exact ⟨hx.1, htail⟩
          exact hp this
        · exact ih cs (by omega)

theorem replHttp_fix (n : Nat) : ∀ s : List Char, s.length ≤ n →
    hasPat s = false → replHttp s = s := by
  induction n with
  | zero =>
    intro s hs _
    have : s = [] := List.eq_nil_of_length_eq_zero (Nat.le_zero.mp hs)
    subst this; rfl
  | succ n ih =>
    intro s hs h
    cases s with
    | nil => rfl
    | cons c cs =>
      simp only [List.length_cons] at hs
      simp only [hasPat, Bool.or_eq_false_iff] at h
      have hp : ¬ httpPat.isPrefixOf (c :: cs) = true := by
        rw [h.1]; exact Bool.false_ne_true
      rw [replHttp_not_pre hp, ih cs (by omega) h.2]

theorem hasPat_false_of_prefix {v w : List Char} (hvw : v <+: w)
    (hw : hasPat w = false) : hasPat v = false := by
  cases hv : hasPat v
  · rfl
  · exfalso
    have hin : httpPat <:+: w :=
      ((hasPat_iff v).mp hv).trans hvw.isInfix
    have ht := (hasPat_iff w).mpr hin
    rw [hw] at ht
    exact nomatch ht

/- Helper lemmas on stripping, truncation and membership. -/

theorem dropWhile_eq_self_of_all {p : Char → Bool} {s : List Char}
    (h : ∀ c ∈ s, p c = false) : s.dropWhile p = s := by
  cases s with
  | nil => rfl
  | cons c cs => simp [List.dropWhile_cons, h c (List.mem_cons_self c cs)]

theorem stripBy_eq_self_of_all {p : Char → Bool} {s : List Char}
    (h : ∀ c ∈ s, p c = false) : stripBy p s = s := by
  unfold stripBy lstripBy rstripBy
  rw [dropWhile_eq_self_of_all h,
    dropWhile_eq_self_of_all (fun c hc => h c (List.mem_reverse.mp hc)),
    List.reverse_reverse]

theorem dropWhile_dropWhile {p : Char → Bool} (s : List Char) :
    (s.dropWhile p).dropWhile p = s.dropWhile p := by
  induction s with
  | nil => rfl
  | cons c cs ih =>
    by_cases h : p c = true
    · simp [List.dropWhile_cons, h, ih]
    · have h0 : p c = false := by
        cases hc : p c
        · rfl
        · exact absurd hc h
      simp [List.dropWhile_cons, h0]

theorem rstripBy_front (p : Char → Bool) (s : List Char) : rstripBy p s <+: s := by
  unfold rstripBy
  nth_rewrite 2 [← List.reverse_reverse s]
  exact List.reverse_prefix.mpr (List.dropWhile_suffix p)

theorem rstripBy_idem (p : Char → Bool) (s : List Char) :
    rstripBy p (rstripBy p s) = rstripBy p s := by
  unfold rstripBy
  rw [List.reverse_reverse, dropWhile_dropWhile]

theorem mem_pyStrip {c : Char} {s : List Char} (h : c ∈ pyStrip s) : c ∈ s := by
  unfold pyStrip stripBy lstripBy at h
  exact (List.dropWhile_suffix isPyWs).subset ((rstripBy_front isPyWs _).subset h)

theorem getLast?_mem_local : ∀ (xs : List Char) (y : Char), xs.getLast? = some y → y ∈ xs := by
  intro xs
  induction xs with
  | nil => intro y h; exact nomatch h
  | cons x xs ih =>
    intro y h
    cases xs with
    | nil =>
      simp only [List.getLast?_singleton, Option.some.injEq] at h
      subst h; exact List.mem_singleton_self x
    | cons z zs =>
      rw [List.getLast?_cons_cons] at h
      exact List.mem_cons_of_mem x (ih y h)

theorem endsNl_false_of_no_nl {xs : List Char} (h : '\n' ∉ xs) : endsNl xs = false := by
  unfold endsNl
  cases hl : xs.getLast? with
  | none => rfl
  | some y =>
    have hy : y ∈ xs := getLast?_mem_local xs y hl
    have hne : y ≠ '\n' := fun he => h (he ▸ hy)
    rw [beq_eq_false_iff_ne]
    intro hc
    exact hne (Option.some.inj hc)

theorem noNlButLast_true_of_no_nl {xs : List Char} (h : '\n' ∉ xs) :
    noNlButLast xs = true := by
  unfold noNlButLast
  have hnot : '\n' ∉ xs.dropLast := fun hc => h (List.Sublist.mem hc (List.dropLast_sublist xs))
  simp [List.contains, List.elem_eq_mem, hnot]

theorem subToEnd_of_no_nl (a : Char) : ∀ s : List Char, '\n' ∉ s →
    subToEnd a s = s.takeWhile (fun x => !(x == a)) := by
  intro s
  induction s with
  | nil => intro _; rfl
  | cons x xs ih =>
    intro h
    have hnx : '\n' ∉ xs := fun hc => h (List.mem_cons_of_mem _ hc)
    by_cases hxa : x = a
    · simp only [subToEnd]
      rw [if_pos ⟨hxa, noNlButLast_true_of_no_nl hnx⟩,
        if_neg (by rw [endsNl_false_of_no_nl hnx]; exact Bool.false_ne_true)]
      subst hxa
      simp [List.takeWhile_cons]
    · simp only [subToEnd]
      rw [if_neg (fun hc => hxa hc.1)]
      have hbx : (x == a) = false := beq_eq_false_iff_ne.mpr hxa
      simp only [List.takeWhile_cons, hbx, Bool.not_false, if_true]
      rw [ih hnx]

theorem takeWhile_eq_self_of_not_mem {a : Char} {s : List Char} (h : a ∉ s) :
    s.takeWhile (fun x => !(x == a)) = s := by
  rw [List.takeWhile_eq_self_iff]
  intro x hx
  have : x ≠ a := fun he => h (he ▸ hx)
  simp [beq_eq_false_iff_ne.mpr this]

theorem not_mem_takeWhile_anchor (a : Char) (s : List Char) :
    a ∉ s.takeWhile (fun x => !(x == a)) := by
  intro hc
  have := List.mem_takeWhile_imp hc
  simp at this

theorem mem_replHttp (n : Nat) : ∀ s : List Char, s.length ≤ n →
    ∀ c, c ∈ replHttp s → c ∈ s ∨ c ∈ httpsRep := by
  induction n with
  | zero =>
    intro s hs c hc
    have : s = [] := List.eq_nil_of_length_eq_zero (Nat.le_zero.mp hs)
    subst this
    exact absurd hc (by simp [replHttp_nil])
  | succ n ih =>
    intro s hs c hc
    cases s with
    | nil => exact absurd hc (by simp [replHttp_nil])
    | cons x xs =>
      simp only [List.length_cons] at hs
      by_cases hp : httpPat.isPrefixOf (x :: xs) = true
      · rw [replHttp_pre hp] at hc
        rcases List.mem_append.mp hc with h1 | h2
        · exact Or.inr h1
        · rcases ih (xs.drop 6) (by simp only [List.length_drop]; omega) c h2 with h3 | h4
          · exact Or.inl (List.mem_cons_of_mem x (List.mem_of_mem_drop h3))
          · exact Or.inr h4
      · rw [replHttp_not_pre hp] at hc
        rcases List.mem_cons.mp hc with h1 | h2
        · exact Or.inl (h1 ▸ List.mem_cons_self x xs)
        · rcases ih xs (by omega) c h2 with h3 | h4
          · exact Or.inl (List.mem_cons_of_mem x h3)
          · exact Or.inr h4

theorem noWs_httpsRep : ∀ c ∈ httpsRep, isPyWs c = false := by decide

theorem noWs_replHttp {s : List Char} (h : ∀ c ∈ s, isPyWs c = false) :
    ∀ c ∈ replHttp s, isPyWs c = false := by
  intro c hc
  rcases mem_replHttp s.length s le_rfl c hc with h1 | h2
  · exact h c h1
  · exact noWs_httpsRep c h2

theorem no_nl_of_noWs {s : List Char} (h : ∀ c ∈ s, isPyWs c = false) : '\n' ∉ s := by
  intro hc
  have := h '\n' hc
  simp [isPyWs] at this

theorem rstripSlash_front (s : List Char) : rstripSlash s <+: s :=
  rstripBy_front _ s

theorem rstripSlash_idem (s : List Char) :
    rstripSlash (rstripSlash s) = rstripSlash s :=
  rstripBy_idem _ s

theorem canonPipe_eq_of_no_nl (s : List Char) (h : '\n' ∉ replHttp s) :
    canonPipe s = rstripSlash
      (((replHttp s).takeWhile (fun x => !(x == '#'))).takeWhile (fun x => !(x == '?'))) := by
  unfold canonPipe
  rw [subToEnd_of_no_nl '#' _ h,
    subToEnd_of_no_nl '?' _ (fun hc => h ((List.takeWhile_prefix _).subset hc))]

theorem canonPipe_prefix_of_no_nl (s : List Char) (h : '\n' ∉ replHttp s) :
    canonPipe s <+: replHttp s := by
  rw [canonPipe_eq_of_no_nl s h]
  exact (rstripSlash_front _).trans
    ((List.takeWhile_prefix _).trans (List.takeWhile_prefix _))

/-- Claim C3, corrected form: canonical_url is idempotent on every input
without whitespace characters whose canonicalization is not the empty
string.  (Idempotence can fail in general: fragment or query stripping can
expose trailing whitespace that only the second pass trims, and a
canonicalization equal to the empty string is re-cleaned to None.) -/
theorem c3_canonical_url_idempotent_on_wsfree (u : String)
    (hws : ∀ c ∈ u.toList, isPyWs c = false)
    (hne : canonicalUrl u ≠ some "") :
    canonicalUrlO (canonicalUrl u) = canonicalUrl u := by
  by_cases h0 : pyStrip u.toList = []
  · unfold canonicalUrl
    rw [if_pos h0]
    rfl
  · have hss : pyStrip u.toList = u.toList := stripBy_eq_self_of_all hws
    have hcu : canonicalUrl u = some (String.mk (canonPipe u.toList)) := by
      unfold canonicalUrl
      rw [if_neg h0, hss]
    have hwsr : ∀ c ∈ replHttp u.toList, isPyWs c = false := noWs_replHttp hws
    have hnlw : '\n' ∉ replHttp u.toList := no_nl_of_noWs hwsr
    have hvw : canonPipe u.toList <+: replHttp u.toList :=
      canonPipe_prefix_of_no_nl u.toList hnlw
    have hvws : ∀ c ∈ canonPipe u.toList, isPyWs c = false :=
      fun c hc => hwsr c (hvw.subset hc)
    have hvne : canonPipe u.toList ≠ [] := by
      intro hveq
      apply hne
      rw [hcu, hveq]
    have hstripv : pyStrip (canonPipe u.toList) = canonPipe u.toList :=
      stripBy_eq_self_of_all hvws
    have hnp : hasPat (canonPipe u.toList) = false :=
      hasPat_false_of_prefix hvw (hasPat_replHttp u.toList.length u.toList le_rfl)
    have hrv : replHttp (canonPipe u.toList) = canonPipe u.toList :=
      replHttp_fix (canonPipe u.toList).length _ le_rfl hnp
    have hnov : '\n' ∉ canonPipe u.toList := no_nl_of_noWs hvws
    have hveq := canonPipe_eq_of_no_nl u.toList hnlw
    have hnh : '#' ∉ canonPipe u.toList := by
      intro hc
      have hsubv : canonPipe u.toList <+:
          ((replHttp u.toList).takeWhile (fun x => !(x == '#'))) := by
        rw [hveq]
        exact (rstripSlash_front _).trans (List.takeWhile_prefix _)
      exact not_mem_takeWhile_anchor '#' (replHttp u.toList) (hsubv.subset hc)
    have hnq : '?' ∉ canonPipe u.toList := by
      intro hc
      have hsubv : canonPipe u.toList <+:
          (((replHttp u.toList).takeWhile (fun x => !(x == '#'))).takeWhile
            (fun x => !(x == '?'))) := by
        rw [hveq]
        exact rstripSlash_front _
      exact not_mem_takeWhile_anchor '?' _ (hsubv.subset hc)
    have hpipev : canonPipe (canonPipe u.toList) = canonPipe u.toList := by
      have hstep : canonPipe (canonPipe u.toList) =
          rstripSlash (subToEnd '?' (subToEnd '#' (replHttp (canonPipe u.toList)))) := rfl
      rw [hstep, hrv, subToEnd_of_no_nl '#' _ hnov, takeWhile_eq_self_of_not_mem hnh,
        subToEnd_of_no_nl '?' _ hnov, takeWhile_eq_self_of_not_mem hnq, hveq]
      exact rstripSlash_idem _
    rw [hcu]
    show canonicalUrl (String.mk (canonPipe u.toList)) = some (String.mk (canonPipe u.toList))
    have hlist : (String.mk (canonPipe u.toList)).toList = canonPipe u.toList := rfl
    unfold canonicalUrl
    rw [hlist, hstripv, if_neg hvne, hpipev]

/-- Claim C3 counterexample: on the input consisting of a hash then x,
canonical_url returns the empty string, and applying canonical_url again
returns None, so idempotence fails as universally claimed. -/
theorem c3_counterexample : canonicalUrlO (canonicalUrl "#x") ≠ canonicalUrl "#x" := by decide

/-- Witness for c3_canonical_url_idempotent_on_wsfree at a concrete input. -/
theorem c3_witness :
    canonicalUrlO (canonicalUrl "https://a.com/x") = canonicalUrl "https://a.com/x" :=
  c3_canonical_url_idempotent_on_wsfree "https://a.com/x" (by decide) (by decide)

/-- Claim C4, corrected form: on newline-free input, canonical_url trims
whitespace, replaces every occurrence of the insecure scheme substring
(not only a scheme prefix), truncates at the first hash then at the first
question mark, and removes every trailing slash (not exactly one); blank
input maps to absent. -/
theorem c4_canonical_url_algorithm_amended (u : String)
    (hnl : '\n' ∉ u.toList) :
    canonicalUrl u = specCanonicalUrlAmended u := by
  unfold canonicalUrl specCanonicalUrlAmended
  by_cases h0 : pyStrip u.toList = []
  · rw [if_pos h0, if_pos h0]
  · rw [if_neg h0, if_neg h0]
    have hm : '\n' ∉ pyStrip u.toList := fun hc => hnl (mem_pyStrip hc)
    have hmw : '\n' ∉ replHttp (pyStrip u.toList) := by
      intro hc
      rcases mem_replHttp _ _ le_rfl '\n' hc with h1 | h2
      · exact hm h1
      · exact absurd h2 (by decide)
    have : canonPipe (pyStrip u.toList) = rstripSlash (specCutAt '?' (specCutAt '#'
        (replHttp (pyStrip u.toList)))) := by
      unfold specCutAt
      exact canonPipe_eq_of_no_nl _ hmw
    rw [this]

/-- Claim C4 counterexample: the input with two trailing slashes: the code
removes both trailing slashes where the claim says exactly one is removed. -/
theorem c4_counterexample :
    canonicalUrl "https://a.com//" ≠ some (specCanonicalUrl "https://a.com//") := by decide

/-- Witness for c4_canonical_url_algorithm_amended at a concrete input. -/
theorem c4_witness :
    canonicalUrl "http://Example.com/a?q=1#f/" =
      specCanonicalUrlAmended "http://Example.com/a?q=1#f/" :=
  c4_canonical_url_algorithm_amended "http://Example.com/a?q=1#f/" (by decide)

example : normRowPair ["copywriting"] [] = (["writing"], []) := by decide
example : normRowPair ["AI Writing"] [] = (["uncategorized"], ["ai writing"]) := by decide
example : normRowPair [] ["A/B"] = (["uncategorized"], ["A/B", "a", "b"]) := by decide
example : normRowPair ["quantum-sensing"] [] = (["uncategorized"], ["quantum-sensing"]) := by decide
example : normRowPair [] ["NLP"] = (["uncategorized"], ["NLP", "nlp"]) := by decide
example : normRowPair ["chat, Developer"] [] = (["chatbot", "code"], []) := by decide

/- Order lemmas for the code-point comparison and the insertion sort. -/

theorem charLtB_iff {a b : Char} : charLtB a b = true ↔ a.toNat < b.toNat := by
  simp [charLtB]

theorem listLeB_total : ∀ a b : List Char, listLeB a b = true ∨ listLeB b a = true := by
  intro a
  induction a with
  | nil => intro b; exact Or.inl rfl
  | cons x xs ih =>
    intro b
    cases b with
    | nil => exact Or.inr rfl
    | cons y ys =>
      by_cases h1 : charLtB x y = true
      · left; simp [listLeB, h1]
      · by_cases h2 : charLtB y x = true
        · right; simp [listLeB, h2]
        · have hx : ¬ x.toNat < y.toNat := fun hc => h1 (charLtB_iff.mpr hc)
          have hy : ¬ y.toNat < x.toNat := fun hc => h2 (charLtB_iff.mpr hc)
          rcases ih ys with h | h
          · left
            simp [listLeB, h1, h2, h]
          · right
            have h1y : ¬ charLtB y x = true := h2
            have h2y : ¬ charLtB x y = true := h1
            simp [listLeB, h1y, h2y, h]

theorem listLeB_trans : ∀ a b c : List Char,
    listLeB a b = true → listLeB b c = true → listLeB a c = true := by
  intro a
  induction a with
  | nil => intro b c _ _; rfl
  | cons x xs ih =>
    intro b c h1 h2
    cases b with
    | nil => exact nomatch h1
    | cons y ys =>
      cases c with
      | nil => exact nomatch h2
      | cons z zs =>
        simp only [listLeB] at h1 h2 ⊢
        by_cases hxy : charLtB x y = true
        · -- x below y
          have hxy' := charLtB_iff.mp hxy
          by_cases hyz : charLtB y z = true
          · have := charLtB_iff.mp hyz
            rw [if_pos (charLtB_iff.mpr (by omega))]
          · rw [if_neg hyz] at h2
            by_cases hzy : charLtB z y = true
            · rw [if_pos hzy] at h2; exact nomatch h2
            · have hyz' : ¬ y.toNat < z.toNat := fun hc => hyz (charLtB_iff.mpr hc)
              have hzy' : ¬ z.toNat < y.toNat := fun hc => hzy (charLtB_iff.mpr hc)
              rw [if_pos (charLtB_iff.mpr (by omega))]
        · rw [if_neg hxy] at h1
          by_cases hyx : charLtB y x = true
          · rw [if_pos hyx] at h1; exact nomatch h1
          · rw [if_neg hyx] at h1
            have hxy' : ¬ x.toNat < y.toNat := fun hc => hxy (charLtB_iff.mpr hc)
            have hyx' : ¬ y.toNat < x.toNat := fun hc => hyx (charLtB_iff.mpr hc)
            by_cases hyz : charLtB y z = true
            · have := charLtB_iff.mp hyz
              rw [if_pos (charLtB_iff.mpr (by omega))]
            · rw [if_neg hyz] at h2
              by_cases hzy : charLtB z y = true
              · rw [if_pos hzy] at h2; exact nomatch h2
              · rw [if_neg hzy] at h2
                have hyz' : ¬ y.toNat < z.toNat := fun hc => hyz (charLtB_iff.mpr hc)
                have hzy' : ¬ z.toNat < y.toNat := fun hc => hzy (charLtB_iff.mpr hc)
                rw [if_neg (fun hc => hxy' (by have := charLtB_iff.mp hc; omega)),
                  if_neg (fun hc => hyx' (by have := charLtB_iff.mp hc; omega))]
                exact ih ys zs h1 h2

theorem strLeB_total (a b : String) : strLeB a b = true ∨ strLeB b a = true :=
  listLeB_total a.toList b.toList

theorem strLeB_trans {a b c : String} (h1 : strLeB a b = true) (h2 : strLeB b c = true) :
    strLeB a c = true :=
  listLeB_trans a.toList b.toList c.toList h1 h2

theorem mem_insertSorted {le : α → α → Bool} {a x : α} :
    ∀ l : List α, x ∈ insertSorted le a l ↔ x = a ∨ x ∈ l := by
  intro l
  induction l with
  | nil => simp [insertSorted]
  | cons b bs ih =>
    by_cases h : le a b = true
    · simp [insertSorted, h]
    · simp [insertSorted, h, ih]
      tauto

theorem perm_insertSorted (le : α → α → Bool) (a : α) :
    ∀ l : List α, (insertSorted le a l).Perm (a :: l) := by
  intro l
  induction l with
  | nil => simp [insertSorted]
  | cons b bs ih =>
    by_cases h : le a b = true
    · simp [insertSorted, h]
    · simp only [insertSorted, h, if_false]
      exact (ih.cons b).trans (List.Perm.swap a b bs)

theorem perm_sortByB (le : α → α → Bool) :
    ∀ l : List α, (sortByB le l).Perm l := by
  intro l
  induction l with
  | nil => exact List.Perm.refl []
  | cons a as ih =>
    exact (perm_insertSorted le a (sortByB le as)).trans (ih.cons a)

theorem pairwise_insertSorted {le : α → α → Bool}
    (htot : ∀ a b, le a b = true ∨ le b a = true)
    (htrans : ∀ a b c, le a b = true → le b c = true → le a c = true)
    (a : α) : ∀ l : List α, List.Pairwise (fun x y => le x y = true) l →
    List.Pairwise (fun x y => le x y = true) (insertSorted le a l) := by
  intro l
  induction l with
  | nil => intro _; simp [insertSorted]
  | cons b bs ih =>
    intro hp
    rw [List.pairwise_cons] at hp
    by_cases h : le a b = true
    · have he : insertSorted le a (b :: bs) = a :: b :: bs := by
        simp [insertSorted, h]
      rw [he, List.pairwise_cons]
      refine ⟨?_, List.pairwise_cons.mpr hp⟩
      intro x hx
      rcases List.mem_cons.mp hx with h1 | h2
      · exact h1 ▸ h
      · exact htrans a b x h (hp.1 x h2)
    · have he : insertSorted le a (b :: bs) = b :: insertSorted le a bs := by
        simp [insertSorted, h]
      rw [he, List.pairwise_cons]
      refine ⟨?_, ih hp.2⟩
      intro x hx
      rcases (mem_insertSorted _).mp hx with h1 | h2
      · exact h1 ▸ (htot a b).resolve_left h
      · exact hp.1 x h2

theorem pairwise_sortByB {le : α → α → Bool}
    (htot : ∀ a b, le a b = true ∨ le b a = true)
    (htrans : ∀ a b c, le a b = true → le b c = true → le a c = true) :
    ∀ l : List α, List.Pairwise (fun x y => le x y = true) (sortByB le l) := by
  intro l
  induction l with
  | nil => exact List.Pairwise.nil
  | cons a as ih => exact pairwise_insertSorted htot htrans a (sortByB le as) ih

theorem nodup_sortByB {le : α → α → Bool} {l : List α} (h : l.Nodup) :
    (sortByB le l).Nodup :=
  (perm_sortByB le l).nodup_iff.mpr h

theorem mem_sortByB {le : α → α → Bool} {l : List α} {x : α} :
    x ∈ sortByB le l ↔ x ∈ l :=
  (perm_sortByB le l).mem_iff

/- Dedup lemmas. -/

theorem mem_dedupFirstAux [DecidableEq α] {x : α} :
    ∀ (l seen : List α), x ∈ dedupFirstAux seen l ↔ x ∈ l ∧ x ∉ seen := by
  intro l
  induction l with
  | nil => intro seen; simp [dedupFirstAux]
  | cons a as ih =>
    intro seen
    by_cases h : a ∈ seen
    · simp only [dedupFirstAux, if_pos h]
      rw [ih]
      constructor
      · rintro ⟨h1, h2⟩
        exact ⟨List.mem_cons_of_mem a h1, h2⟩
      · rintro ⟨h1, h2⟩
        rcases List.mem_cons.mp h1 with h3 | h3
        · exact absurd (h3 ▸ h) h2
        · exact ⟨h3, h2⟩
    · simp only [dedupFirstAux, if_neg h]
      constructor
      · intro h1
        rcases List.mem_cons.mp h1 with h3 | h3
        · exact ⟨h3 ▸ List.mem_cons_self a as, h3 ▸ h⟩
        · have h4 := (ih (seen ++ [a])).mp h3
          exact ⟨List.mem_cons_of_mem a h4.1,
            fun hc => h4.2 (List.mem_append.mpr (Or.inl hc))⟩
      · rintro ⟨h1, h2⟩
        by_cases hxa : x = a
        · subst hxa
          exact List.mem_cons_self _ _
        · rcases List.mem_cons.mp h1 with h3 | h3
          · exact absurd h3 hxa
          · refine List.mem_cons_of_mem a ((ih (seen ++ [a])).mpr ⟨h3, fun hc => ?_⟩)
            rcases List.mem_append.mp hc with hc1 | hc1
            · exact h2 hc1
            · exact hxa (List.mem_singleton.mp hc1)

theorem nodup_dedupFirstAux [DecidableEq α] :
    ∀ (l seen : List α), (dedupFirstAux seen l).Nodup := by
  intro l
  induction l with
  | nil => intro seen; exact List.nodup_nil
  | cons a as ih =>
    intro seen
    by_cases h : a ∈ seen
    · simp only [dedupFirstAux, if_pos h]
      exact ih seen
    · simp only [dedupFirstAux, if_neg h]
      rw [List.nodup_cons]
      refine ⟨?_, ih (seen ++ [a])⟩
      intro hc
      have := (mem_dedupFirstAux as (seen ++ [a])).mp hc
      exact this.2 (List.mem_append.mpr (Or.inr (List.mem_singleton.mpr rfl)))

theorem mem_dedupFirst [DecidableEq α] {x : α} {l : List α} :
    x ∈ dedupFirst l ↔ x ∈ l := by
  unfold dedupFirst
  rw [mem_dedupFirstAux]
  simp

theorem nodup_dedupFirst [DecidableEq α] (l : List α) : (dedupFirst l).Nodup :=
  nodup_dedupFirstAux l []

theorem mem_sortedSet {x : String} {l : List String} : x ∈ sortedSet l ↔ x ∈ l := by
  unfold sortedSet
  rw [mem_sortByB, mem_dedupFirst]

/- The seen keys of the feed stay duplicate-free. -/

theorem nodup_append_singleton {l : List α} {a : α} (h : l.Nodup) (ha : a ∉ l) :
    (l ++ [a]).Nodup := by
  rw [List.nodup_append]
  refine ⟨h, List.nodup_singleton a, ?_⟩
  intro x hx hxa
  rw [List.mem_singleton] at hxa
  exact ha (hxa ▸ hx)

theorem feedTok_nodup {st : List String × List String} {t : String}
    (h : st.1.Nodup) : (feedTok st t).1.Nodup := by
  unfold feedTok
  by_cases h0 : t = ""
  · rw [if_pos h0]; exact h
  · rw [if_neg h0]
    cases revLookup t with
    | some canon =>
      by_cases hc : canon ∈ st.1
      · simp only [if_pos hc]
        exact h
      · simp only [if_neg hc]
        exact nodup_append_singleton h hc
    | none =>
      by_cases hn : t ∈ canonNames
      · simp only [if_pos hn]
        by_cases hc : t ∈ st.1
        · simp only [if_pos hc]
          exact h
        · simp only [if_neg hc]
          exact nodup_append_singleton h hc
      · simp only [if_neg hn]
        exact h

theorem feedTokens_nodup : ∀ (toks : List String) (st : List String × List String),
    st.1.Nodup → (feedTokens toks st).1.Nodup := by
  intro toks
  induction toks with
  | nil => intro st h; exact h
  | cons t ts ih => intro st h; exact ih (feedTok st t) (feedTok_nodup h)

theorem feedRaw_nodup {candidates : List String} {st : List String × List String}
    (h : st.1.Nodup) : (feedRaw candidates st).1.Nodup :=
  feedTokens_nodup _ st h

/-- Claim C5: the Category Normalizer output categories are non-empty,
sorted and duplicate-free, and when nothing classifies the output is the
single sentinel category. -/
theorem c5_category_normalizer_nonempty_sorted (catsRaw tagsRaw : List String) :
    (normRowPair catsRaw tagsRaw).1 ≠ [] ∧
    List.Pairwise (fun a b => strLeB a b = true) (normRowPair catsRaw tagsRaw).1 ∧
    (normRowPair catsRaw tagsRaw).1.Nodup ∧
    ((normalizeCategoriesForRow catsRaw tagsRaw).1 = [] →
      (normRowPair catsRaw tagsRaw).1 = ["uncategorized"]) := by
  have hdef : (normRowPair catsRaw tagsRaw).1 =
      if (normalizeCategoriesForRow catsRaw tagsRaw).1 = [] then ["uncategorized"]
      else (normalizeCategoriesForRow catsRaw tagsRaw).1 := rfl
  have hnfr : (normalizeCategoriesForRow catsRaw tagsRaw).1 =
      sortByB strLeB (feedRaw tagsRaw (feedRaw catsRaw ([], []))).1 := rfl
  by_cases hX : (normalizeCategoriesForRow catsRaw tagsRaw).1 = []
  · rw [hdef, if_pos hX]
    exact ⟨by simp, by simp, by simp, fun _ => rfl⟩
  · rw [hdef, if_neg hX]
    refine ⟨hX, ?_, ?_, fun hc => absurd hc hX⟩
    · rw [hnfr]
      exact pairwise_sortByB strLeB_total (fun a b c => listLeB_trans _ _ _) _
    · rw [hnfr]
      exact nodup_sortByB (feedRaw_nodup (feedRaw_nodup List.nodup_nil))

/-- Witness for c5_category_normalizer_nonempty_sorted at a concrete input
where nothing classifies. -/
theorem c5_witness : (normRowPair ["quantum-sensing"] []).1 = ["uncategorized"] :=
  (c5_category_normalizer_nonempty_sorted ["quantum-sensing"] []).2.2.2 (by decide)

/-- Claim C6 counterexample: the raw category AI Writing does not normalize
to the canonical category writing; it matches nothing in the taxonomy. -/
theorem c6_counterexample : ¬ ("writing" ∈ (normRowPair ["AI Writing"] []).1) := by decide

/-- Claim C6, corrected form: copywriting maps to writing, but AI Writing
matches no taxonomy entry: its categories fall back to uncategorized and
its cleaned form lands in the tags. -/
theorem c6_copywriting_maps_to_writing :
    (normRowPair ["copywriting"] []).1 = ["writing"] ∧
    (normRowPair ["AI Writing"] []).1 = ["uncategorized"] ∧
    (normRowPair ["AI Writing"] []).2 = ["ai writing"] := by decide

/- Splitter lemmas for the category tokenizer. -/

theorem splitAuxF_fuel : ∀ (f g : Nat) (acc s : List Char),
    s.length ≤ f → s.length ≤ g → splitAuxF f acc s = splitAuxF g acc s := by
  intro f
  induction f with
  | zero =>
    intro g acc s hf _
    cases s with
    | nil => cases g <;> rfl
    | cons c cs => simp at hf
  | succ f ih =>
    intro g acc s hf hg
    cases s with
    | nil => cases g <;> rfl
    | cons c cs =>
      cases g with
      | zero => simp at hg
      | succ g =>
        simp only [List.length_cons] at hf hg
        simp only [splitAuxF]
        by_cases hd : delimChar c = true
        · rw [if_pos hd, if_pos hd, ih g [] cs (by omega) (by omega)]
        · rw [if_neg hd, if_neg hd]
          by_cases ha : isAndPrefix (c :: cs) = true
          · rw [if_pos ha, if_pos ha,
              ih g [] (cs.drop 4) (by simp only [List.length_drop]; omega)
                (by simp only [List.length_drop]; omega)]
          · rw [if_neg ha, if_neg ha, ih g (c :: acc) cs (by omega) (by omega)]

theorem splitA_nil (acc : List Char) : splitA acc [] = [acc.reverse] := rfl

theorem splitA_delim {c : Char} (hd : delimChar c = true) (acc cs : List Char) :
    splitA acc (c :: cs) = acc.reverse :: splitA [] cs := by
  have h0 : splitA acc (c :: cs) = splitAuxF (cs.length + 1) acc (c :: cs) := rfl
  rw [h0]
  simp only [splitAuxF, if_pos hd]
  rfl

theorem splitA_and {c : Char} {cs : List Char} (hd : ¬ delimChar c = true)
    (ha : isAndPrefix (c :: cs) = true) (acc : List Char) :
    splitA acc (c :: cs) = acc.reverse :: splitA [] (cs.drop 4) := by
  have h0 : splitA acc (c :: cs) = splitAuxF (cs.length + 1) acc (c :: cs) := rfl
  rw [h0]
  simp only [splitAuxF, if_neg hd, if_pos ha]
  congr 1
  exact splitAuxF_fuel cs.length (cs.drop 4).length [] (cs.drop 4)
    (by simp only [List.length_drop]; omega) le_rfl

theorem splitA_go {c : Char} {cs : List Char} (hd : ¬ delimChar c = true)
    (ha : ¬ isAndPrefix (c :: cs) = true) (acc : List Char) :
    splitA acc (c :: cs) = splitA (c :: acc) cs := by
  have h0 : splitA acc (c :: cs) = splitAuxF (cs.length + 1) acc (c :: cs) := rfl
  rw [h0]
  simp only [splitAuxF, if_neg hd, if_neg ha]
  rfl

theorem isAndPrefix_append_comma (xs b : List Char) :
    isAndPrefix (xs ++ ',' :: b) = isAndPrefix xs := by
  rcases xs with _ | ⟨c0, _ | ⟨c1, _ | ⟨c2, _ | ⟨c3, _ | ⟨c4, rest⟩⟩⟩⟩⟩
  · rcases b with _ | ⟨b0, _ | ⟨b1, _ | ⟨b2, _ | ⟨b3, r⟩⟩⟩⟩ <;> rfl
  · rcases b with _ | ⟨b0, _ | ⟨b1, _ | ⟨b2, r⟩⟩⟩ <;>
      first | rfl | simp [isAndPrefix, lowEq, lowerChar]
  · rcases b with _ | ⟨b0, _ | ⟨b1, r⟩⟩ <;>
      first | rfl | simp [isAndPrefix, lowEq, lowerChar]
  · rcases b with _ | ⟨b0, r⟩ <;>
      first | rfl | simp [isAndPrefix, lowEq, lowerChar]
  · simp [isAndPrefix, lowEq, lowerChar]
  · rfl

theorem isAndPrefix_length {c : Char} {cs : List Char}
    (h : isAndPrefix (c :: cs) = true) : 4 ≤ cs.length := by
  rcases cs with _ | ⟨c1, _ | ⟨c2, _ | ⟨c3, _ | ⟨c4, rest⟩⟩⟩⟩
  · exact nomatch h
  · exact nomatch h
  · exact nomatch h
  · exact nomatch h
  · simp

theorem splitA_append_comma : ∀ (n : Nat) (a : List Char), a.length ≤ n →
    ∀ (acc b : List Char), splitA acc (a ++ ',' :: b) = splitA acc a ++ splitA [] b := by
  intro n
  induction n with
  | zero =>
    intro a ha acc b
    have : a = [] := List.eq_nil_of_length_eq_zero (Nat.le_zero.mp ha)
    subst this
    rw [List.nil_append, splitA_delim (show delimChar ',' = true from rfl),
      splitA_nil, List.singleton_append]
  | succ n ih =>
    intro a ha acc b
    cases a with
    | nil =>
      rw [List.nil_append, splitA_delim (show delimChar ',' = true from rfl),
        splitA_nil, List.singleton_append]
    | cons c cs =>
      simp only [List.length_cons] at ha
      rw [List.cons_append]
      by_cases hd : delimChar c = true
      · rw [splitA_delim hd, splitA_delim hd, ih cs (by omega), List.cons_append]
      · by_cases hand : isAndPrefix (c :: cs) = true
        · have hba : isAndPrefix (c :: (cs ++ ',' :: b)) = true := by
            have := isAndPrefix_append_comma (c :: cs) b
            rw [List.cons_append] at this
            rw [this]
            exact hand
          rw [splitA_and hd hba, splitA_and hd hand]
          have hlen := isAndPrefix_length hand
          rw [List.drop_append_of_le_length hlen, ih (cs.drop 4)
            (by simp only [List.length_drop]; omega), List.cons_append]
        · have hba : ¬ isAndPrefix (c :: (cs ++ ',' :: b)) = true := by
            have := isAndPrefix_append_comma (c :: cs) b
            rw [List.cons_append] at this
            rw [this]
            exact hand
          rw [splitA_go hd hba, splitA_go hd hand, ih cs (by omega)]

theorem splitA_no_delim : ∀ (s acc : List Char),
    (∀ c ∈ s, delimChar c = false) → hasAndOcc s = false →
    splitA acc s = [acc.reverse ++ s] := by
  intro s
  induction s with
  | nil => intro acc _ _; rw [splitA_nil, List.append_nil]
  | cons c cs ih =>
    intro acc hdel hand
    simp only [hasAndOcc, Bool.or_eq_false_iff] at hand
    have hd : ¬ delimChar c = true := by
      rw [hdel c (List.mem_cons_self c cs)]; exact Bool.false_ne_true
    have ha : ¬ isAndPrefix (c :: cs) = true := by
      rw [hand.1]; exact Bool.false_ne_true
    rw [splitA_go hd ha, ih (c :: acc)
      (fun x hx => hdel x (List.mem_cons_of_mem c hx)) hand.2]
    simp

theorem joinComma_cons_ne {x : String} {l : List String} (h : l ≠ []) :
    joinComma (x :: l) = x.toList ++ ',' :: ' ' :: joinComma l := by
  cases l with
  | nil => exact absurd rfl h
  | cons y ys => rfl

theorem cleanToken_cons_space (s : List Char) : cleanToken (' ' :: s) = cleanToken s := by
  unfold cleanToken
  have h : pyStrip (' ' :: s) = pyStrip s := by
    unfold pyStrip stripBy lstripBy
    rw [List.dropWhile_cons]
    simp [isPyWs]
  rw [h]

theorem hasAndOcc_tail {c : Char} {cs : List Char} (h : hasAndOcc (c :: cs) = false) :
    isAndPrefix (c :: cs) = false ∧ hasAndOcc cs = false := by
  have h0 : hasAndOcc (c :: cs) = (isAndPrefix (c :: cs) || hasAndOcc cs) := rfl
  rw [h0] at h
  exact Bool.or_eq_false_iff.mp h

/-- The piece of the joined-and-split token stream that carries a
delimiter-free tag: the tag itself, possibly with the joining space. -/
theorem piece_in_split_inner : ∀ (pre' : List String) (t : String) (post : List String),
    (∀ c ∈ t.toList, delimChar c = false) → hasAndOcc (' ' :: t.toList) = false →
    ∃ p ∈ splitA [] (' ' :: joinComma (pre' ++ t :: post)),
      cleanToken p = cleanToken t.toList := by
  intro pre'
  induction pre' with
  | nil =>
    intro t post hdel hand
    have hdel2 : ∀ c ∈ (' ' :: t.toList), delimChar c = false := by
      intro c hc
      rcases List.mem_cons.mp hc with h1 | h1
      · rw [h1]; rfl
      · exact hdel c h1
    simp only [List.nil_append]
    cases post with
    | nil =>
      refine ⟨' ' :: t.toList, ?_, cleanToken_cons_space t.toList⟩
      show ' ' :: t.toList ∈ splitA [] (' ' :: t.toList)
      rw [splitA_no_delim (' ' :: t.toList) [] hdel2 hand]
      simp
    | cons q qs =>
      show ∃ p ∈ splitA [] ((' ' :: t.toList) ++ ',' :: (' ' :: joinComma (q :: qs))),
        cleanToken p = cleanToken t.toList
      rw [splitA_append_comma (' ' :: t.toList).length _ le_rfl]
      refine ⟨' ' :: t.toList, ?_, cleanToken_cons_space t.toList⟩
      rw [splitA_no_delim (' ' :: t.toList) [] hdel2 hand]
      simp
  | cons y pre'' ih =>
    intro t post hdel hand
    have hne : pre'' ++ t :: post ≠ [] :=
      List.append_ne_nil_of_right_ne_nil pre'' (List.cons_ne_nil t post)
    have hj : joinComma (y :: (pre'' ++ t :: post)) =
        y.toList ++ ',' :: ' ' :: joinComma (pre'' ++ t :: post) := joinComma_cons_ne hne
    rw [show (y :: pre'') ++ t :: post = y :: (pre'' ++ t :: post) from rfl, hj,
      show (' ' :: (y.toList ++ ',' :: ' ' :: joinComma (pre'' ++ t :: post))) =
        ((' ' :: y.toList) ++ ',' :: (' ' :: joinComma (pre'' ++ t :: post))) from rfl,
      splitA_append_comma (' ' :: y.toList).length _ le_rfl]
    rcases ih t post hdel hand with ⟨p, hp, hcp⟩
    exact ⟨p, List.mem_append.mpr (Or.inr hp), hcp⟩

theorem piece_in_splitTokens : ∀ (pre : List String) (t : String) (post : List String),
    (∀ c ∈ t.toList, delimChar c = false) → hasAndOcc (' ' :: t.toList) = false →
    ∃ p ∈ splitTokens (joinComma (pre ++ t :: post)),
      cleanToken p = cleanToken t.toList := by
  intro pre t post hdel hand
  have handt : hasAndOcc t.toList = false := (hasAndOcc_tail hand).2
  cases pre with
  | nil =>
    simp only [List.nil_append]
    cases post with
    | nil =>
      refine ⟨t.toList, ?_, rfl⟩
      show t.toList ∈ splitA [] t.toList
      rw [splitA_no_delim t.toList [] hdel handt]
      simp
    | cons q qs =>
      show ∃ p ∈ splitA [] (t.toList ++ ',' :: (' ' :: joinComma (q :: qs))),
        cleanToken p = cleanToken t.toList
      rw [splitA_append_comma t.toList.length _ le_rfl]
      refine ⟨t.toList, ?_, rfl⟩
      rw [splitA_no_delim t.toList [] hdel handt]
      simp
  | cons x pre' =>
    have hne : pre' ++ t :: post ≠ [] :=
      List.append_ne_nil_of_right_ne_nil pre' (List.cons_ne_nil t post)
    have hj : joinComma ((x :: pre') ++ t :: post) =
        x.toList ++ ',' :: ' ' :: joinComma (pre' ++ t :: post) := joinComma_cons_ne hne
    rw [hj]
    show ∃ p ∈ splitA [] (x.toList ++ ',' :: (' ' :: joinComma (pre' ++ t :: post))),
      cleanToken p = cleanToken t.toList
    rw [splitA_append_comma x.toList.length _ le_rfl]
    rcases piece_in_split_inner pre' t post hdel hand with ⟨p, hp, hcp⟩
    exact ⟨p, List.mem_append.mpr (Or.inr hp), hcp⟩

/- Unknown-token accumulation in the feed. -/

theorem feedTok_unknown_mono {st : List String × List String} {t x : String}
    (h : x ∈ st.2) : x ∈ (feedTok st t).2 := by
  unfold feedTok
  by_cases h0 : t = ""
  · rw [if_pos h0]; exact h
  · rw [if_neg h0]
    cases revLookup t with
    | some canon => exact h
    | none =>
      by_cases hn : t ∈ canonNames
      · simp only [if_pos hn]
        exact h
      · simp only [if_neg hn]
        exact List.mem_append.mpr (Or.inl h)

theorem feedTokens_unknown_mono : ∀ (toks : List String) (st : List String × List String)
    (x : String), x ∈ st.2 → x ∈ (feedTokens toks st).2 := by
  intro toks
  induction toks with
  | nil => intro st x h; exact h
  | cons t ts ih => intro st x h; exact ih (feedTok st t) x (feedTok_unknown_mono h)

theorem feedTokens_unknown_mem : ∀ (toks : List String) (st : List String × List String)
    (tok : String), tok ∈ toks → tok ≠ "" → revLookup tok = none →
    tok ∉ canonNames → tok ∈ (feedTokens toks st).2 := by
  intro toks
  induction toks with
  | nil => intro st tok h; exact absurd h (List.not_mem_nil tok)
  | cons t ts ih =>
    intro st tok hmem hne hrev hcanon
    rcases List.mem_cons.mp hmem with h1 | h1
    · subst h1
      have hstep : tok ∈ (feedTok st tok).2 := by
        unfold feedTok
        rw [if_neg hne, hrev]
        simp only [if_neg hcanon]
        exact List.mem_append.mpr (Or.inr (List.mem_singleton.mpr rfl))
      exact feedTokens_unknown_mono ts (feedTok st tok) tok hstep
    · exact ih (feedTok st t) tok h1 hne hrev hcanon

/-- Claim C10, corrected form: for a tag string with no delimiter characters
and no occurrence of the five-character delimiter word when preceded by the
joining space, whose cleaned form is non-empty and classifies as nothing,
the output tags contain both the original tag and its cleaned form.  (A tag
containing delimiters is split first, so only its cleaned pieces spill
over, not the cleaned form of the whole tag.) -/
theorem c10_unknown_tag_spillover (catsRaw tagsRaw : List String) (t : String)
    (hmem : t ∈ tagsRaw)
    (hclean : cleanTokenStr t ≠ "")
    (hdelim : ∀ c ∈ t.toList, delimChar c = false)
    (hand : hasAndOcc (' ' :: t.toList) = false)
    (hrev : revLookup (cleanTokenStr t) = none)
    (hcanon : cleanTokenStr t ∉ canonNames) :
    t ∈ (normRowPair catsRaw tagsRaw).2 ∧
    cleanTokenStr t ∈ (normRowPair catsRaw tagsRaw).2 := by
  have hdef2 : (normRowPair catsRaw tagsRaw).2 =
      sortedSet (tagsRaw ++ (normalizeCategoriesForRow catsRaw tagsRaw).2) := rfl
  constructor
  · rw [hdef2]
    exact mem_sortedSet.mpr (List.mem_append.mpr (Or.inl hmem))
  · obtain ⟨pre, post, hsplit⟩ := List.append_of_mem hmem
    subst hsplit
    obtain ⟨p, hp, hcp⟩ := piece_in_splitTokens pre t post hdelim hand
    have htok : cleanTokenStr t ∈
        (splitTokens (joinComma (pre ++ t :: post))).map
          (fun q => String.mk (cleanToken q)) := by
      refine List.mem_map.mpr ⟨p, hp, ?_⟩
      show String.mk (cleanToken p) = cleanTokenStr t
      rw [hcp]
      rfl
    have hfeed : cleanTokenStr t ∈
        (feedRaw (pre ++ t :: post) (feedRaw catsRaw ([], []))).2 := by
      unfold feedRaw
      exact feedTokens_unknown_mem _ _ _ htok hclean hrev hcanon
    have hun : (normalizeCategoriesForRow catsRaw (pre ++ t :: post)).2 =
        sortedSet (feedRaw (pre ++ t :: post) (feedRaw catsRaw ([], []))).2 := rfl
    rw [hdef2]
    refine mem_sortedSet.mpr (List.mem_append.mpr (Or.inr ?_))
    rw [hun]
    exact mem_sortedSet.mpr hfeed

/-- Claim C10 counterexample: a tag containing a delimiter, slash A slash B:
its cleaned form is a slash b, which is absent from the output tags since
the splitter cut the tag into pieces before cleaning. -/
theorem c10_counterexample :
    cleanTokenStr "A/B" = "a/b" ∧ "a/b" ∉ (normRowPair [] ["A/B"]).2 := by decide

/-- Witness for c10_unknown_tag_spillover at the concrete input NLP, the
example from the claim. -/
theorem c10_witness :
    "NLP" ∈ (normRowPair [] ["NLP"]).2 ∧
    cleanTokenStr "NLP" ∈ (normRowPair [] ["NLP"]).2 :=
  c10_unknown_tag_spillover [] ["NLP"] "NLP" (by decide) (by decide) (by decide)
    (by decide) (by decide) (by decide)

/-- Every record normalize_one produces derives its domain from its own url
field through exactly the guarded extraction of line 199. -/
theorem normalizeOne_domain_spec (rd : String → String) (df : Frame) (src : String) :
    ∀ r ∈ normalizeOne rd df src,
      r.domain = match r.url with
        | some u => if u ≠ "" then some (rd u) else none
        | none => none := by
  intro r hr
  unfold normalizeOne at hr
  rw [List.mem_map] at hr
  obtain ⟨row, hrow, rfl⟩ := hr
  rfl

/-- Claim C9: in every silver record normalize_one produces, an absent url
forces an absent domain, so every record that would reach the fallback
merge key carries a null domain component. -/
theorem c9_null_url_forces_null_domain (rd : String → String) (df : Frame)
    (src : String) (r : SilverRec) (hr : r ∈ normalizeOne rd df src)
    (hu : r.url = none) : r.domain = none := by
  have h := normalizeOne_domain_spec rd df src r hr
  rw [hu] at h
  exact h.trans rfl

/-- Witness for c9_null_url_forces_null_domain at a concrete frame. -/
theorem c9_witness :
    (SilverRec.mk (some "A") none (some "None") [] ["uncategorized"]
      false false none "s").domain = none :=
  c9_null_url_forces_null_domain (fun _ => "")
    ⟨["name"], [⟨[("name", Cell.s "A")]⟩]⟩ "s" _ (by decide) (by decide)

/-- Claim C1 is contradicted by the code: a row whose name cell is the
blank string survives normalize_one with an empty name, because the
dropna of line 203 runs after astype(str) and finds no null to drop. -/
theorem c1_blank_name_row_survives :
    (normalizeOne (fun _ => "") ⟨["name"], [⟨[("name", Cell.s " ")]⟩]⟩ "src").map
      (fun r => r.name) = [some ""] := by decide

/-- Claim C2 is contradicted by the code: a silver record with a null url
(hence, per the silver stage, a null domain) belongs to no merge group at
all, because pandas groupby drops null group keys; the gold output for a
one-record input is empty. -/
theorem c2_null_key_fallback_rows_vanish :
    goldRun [⟨some "A", none, some "", [], ["uncategorized"], false, false, none, "s"⟩]
      = [] := by decide

/-- Claim C8 counterexample: on an empty input collection the silver stage
reports no error at all (and writes nothing); the claim says both stages
report an error. -/
theorem c8_counterexample :
    (silverStage (fun _ => "") []).errorReported = false ∧
    (silverStage (fun _ => "") []).written = [] :=
  ⟨rfl, rfl⟩

/-- Claim C8, corrected form: the gold stage aborts before writing and
reports an error on an empty input collection, while the silver stage
never reports an error: on empty input it merely writes nothing. -/
theorem c8_gold_aborts_silver_silent :
    (goldStage []).errorReported = true ∧ (goldStage []).written = none ∧
    ∀ (rd : String → String) (files : List (String × Frame)),
      (silverStage rd files).errorReported = false :=
  ⟨rfl, rfl, fun _ _ => rfl⟩

/- Helper lemmas for the merge theorem. -/

theorem filter_filter_of_imp {α : Type} {p q : α → Bool}
    (h : ∀ x, p x = true → q x = true) :
    ∀ l : List α, (l.filter q).filter p = l.filter p := by
  intro l
  induction l with
  | nil => rfl
  | cons x xs ih =>
    by_cases hq : q x = true
    · rw [List.filter_cons_of_pos hq]
      by_cases hp : p x = true
      · rw [List.filter_cons_of_pos hp, List.filter_cons_of_pos hp, ih]
      · rw [List.filter_cons_of_neg hp, List.filter_cons_of_neg hp, ih]
    · have hp : ¬ p x = true := fun hc => hq (h x hc)
      rw [List.filter_cons_of_neg hq, List.filter_cons_of_neg hp, ih]

theorem filter_filter_comb {α : Type} {p q : α → Bool} :
    ∀ l : List α, (l.filter q).filter p = l.filter (fun x => q x && p x) := by
  intro l
  induction l with
  | nil => rfl
  | cons x xs ih =>
    by_cases hq : q x = true
    · rw [List.filter_cons_of_pos hq]
      by_cases hp : p x = true
      · rw [List.filter_cons_of_pos hp, List.filter_cons_of_pos (by rw [hq, hp]; rfl), ih]
      · have hp' : p x = false := by
          cases hc : p x
          · rfl
          · exact absurd hc hp
        rw [List.filter_cons_of_neg hp, List.filter_cons_of_neg (by rw [hq, hp']; simp), ih]
    · have hq' : q x = false := by
        cases hc : q x
        · rfl
        · exact absurd hc hq
      rw [List.filter_cons_of_neg hq, List.filter_cons_of_neg (by rw [hq']; simp), ih]

theorem filter_ext {α : Type} {p q : α → Bool} (h : ∀ x, p x = q x) (l : List α) :
    l.filter p = l.filter q := by
  rw [show p = q from funext h]

theorem findSome_id_all_some {α : Type} {k : α} :
    ∀ l : List (Option α), l ≠ [] → (∀ o ∈ l, o = some k) →
    l.findSome? id = some k := by
  intro l
  cases l with
  | nil => intro h _; exact absurd rfl h
  | cons o os =>
    intro _ hall
    have ho : o = some k := hall o (List.mem_cons_self o os)
    subst ho
    rfl

theorem findSome_id_all_none {α : Type} :
    ∀ l : List (Option α), (∀ o ∈ l, o = none) → l.findSome? id = none := by
  intro l
  induction l with
  | nil => intro _; rfl
  | cons o os ih =>
    intro hall
    have ho : o = none := hall o (List.mem_cons_self o os)
    subst ho
    rw [show (List.findSome? id (none :: os)) = List.findSome? id os from rfl]
    exact ih (fun x hx => hall x (List.mem_cons_of_mem none hx))

theorem maxByLenFirst_all_eq {n : String} : ∀ cs : List String,
    (∀ x ∈ cs, x = n) → maxByLenFirst n cs = n := by
  intro cs
  induction cs with
  | nil => intro _; rfl
  | cons x xs ih =>
    intro h
    have hx : x = n := h x (List.mem_cons_self x xs)
    subst hx
    have hstep : maxByLenFirst x (x :: xs) =
        maxByLenFirst (if x.length > x.length then x else x) xs := rfl
    rw [hstep, ite_self]
    exact ih (fun y hy => h y (List.mem_cons_of_mem x hy))

theorem filterMap_all_some {α β : Type} {b : β} {a : α} (f : α → Option β)
    (hf : f a = some b) : ∀ l : List α, (∀ o ∈ l, o = a) →
    l.filterMap f = l.map (fun _ => b) := by
  intro l
  induction l with
  | nil => intro _; rfl
  | cons o os ih =>
    intro hall
    have ho : o = a := hall o (List.mem_cons_self o os)
    subst ho
    rw [List.filterMap_cons, hf, List.map_cons,
      ih (fun x hx => hall x (List.mem_cons_of_mem o hx))]

theorem filterMap_all_none {α β : Type} {a : α} (f : α → Option β)
    (hf : f a = none) : ∀ l : List α, (∀ o ∈ l, o = a) →
    l.filterMap f = [] := by
  intro l
  induction l with
  | nil => intro _; rfl
  | cons o os ih =>
    intro hall
    have ho : o = a := hall o (List.mem_cons_self o os)
    subst ho
    rw [List.filterMap_cons, hf, ih (fun x hx => hall x (List.mem_cons_of_mem o hx))]

theorem pickLongest_all_eq {n : String} : ∀ l : List (Option String), l ≠ [] →
    (∀ o ∈ l, o = some n) → pickLongest l = some n := by
  intro l hne hall
  by_cases ht : String.mk (pyStrip n.toList) ≠ ""
  · have hf : (fun o : Option String =>
        match o with
        | some v => if String.mk (pyStrip v.toList) ≠ "" then some v else none
        | none => none) (some n) = some n := by
      show (if String.mk (pyStrip n.toList) ≠ "" then some n else none) = some n
      exact if_pos ht
    have hfm := @filterMap_all_some (Option String) String n (some n)
      (fun o : Option String =>
        match o with
        | some v => if String.mk (pyStrip v.toList) ≠ "" then some v else none
        | none => none) hf l hall
    unfold pickLongest
    rw [hfm]
    cases l with
    | nil => exact absurd rfl hne
    | cons o os =>
      rw [List.map_cons]
      show some (maxByLenFirst n (os.map (fun _ => n))) = some n
      rw [maxByLenFirst_all_eq (os.map (fun _ => n)) (by
        intro x hx
        rcases List.mem_map.mp hx with ⟨y, _, he⟩
        exact he.symm)]
  · have hf : (fun o : Option String =>
        match o with
        | some v => if String.mk (pyStrip v.toList) ≠ "" then some v else none
        | none => none) (some n) = none := by
      show (if String.mk (pyStrip n.toList) ≠ "" then some n else none) = none
      exact if_neg ht
    have hfm := @filterMap_all_none (Option String) String (some n)
      (fun o : Option String =>
        match o with
        | some v => if String.mk (pyStrip v.toList) ≠ "" then some v else none
        | none => none) hf l hall
    unfold pickLongest
    rw [hfm]
    exact findSome_id_all_some l hne hall

/-- Claim C7: every record of the gold output ORs its group members
booleans: a url-keyed record over the rows sharing its url, a
fallback-keyed record over the null-url rows sharing its (domain, name). -/
theorem c7_merge_or_monotone (rows : List SilverRec) (r : GoldRec)
    (hr : r ∈ goldRun rows) :
    (∀ u : String, r.url = some u →
      r.hasApi = (rows.filter (fun x => x.url == some u)).any (fun x => x.hasApi) ∧
      r.hasFree = (rows.filter (fun x => x.url == some u)).any (fun x => x.hasFree)) ∧
    (r.url = none → ∀ d n : String, r.domain = some d → r.name = some n →
      r.hasApi = (rows.filter (fun x => x.url == (none : Option String) &&
          x.domain == some d && x.name == some n)).any (fun x => x.hasApi) ∧
      r.hasFree = (rows.filter (fun x => x.url == (none : Option String) &&
          x.domain == some d && x.name == some n)).any (fun x => x.hasFree)) := by
  unfold goldRun at hr
  rw [List.mem_append] at hr
  rcases hr with h1 | h2
  · rw [List.mem_map] at h1
    obtain ⟨k, hk, rfl⟩ := h1
    rw [mem_sortByB, mem_dedupFirst, List.mem_filterMap] at hk
    obtain ⟨x, hx, hxk⟩ := hk
    have hmem : x ∈ (rows.filter (fun q => q.url.isSome)).filter
        (fun q => q.url == some k) :=
      List.mem_filter.mpr ⟨hx, beq_iff_eq.mpr hxk⟩
    have hcoll : (rows.filter (fun q => q.url.isSome)).filter (fun q => q.url == some k)
        = rows.filter (fun q => q.url == some k) := by
      refine filter_filter_of_imp ?_ rows
      intro y hy
      rw [beq_iff_eq] at hy
      rw [hy]
      rfl
    have hall : ∀ o ∈ ((rows.filter (fun q => q.url.isSome)).filter
        (fun q => q.url == some k)).map (fun q => q.url), o = some k := by
      intro o ho
      rcases List.mem_map.mp ho with ⟨y, hy, rfl⟩
      exact beq_iff_eq.mp (List.mem_filter.mp hy).2
    have hne : ((rows.filter (fun q => q.url.isSome)).filter
        (fun q => q.url == some k)).map (fun q => q.url) ≠ [] := by
      intro hc
      rw [List.map_eq_nil_iff] at hc
      rw [hc] at hmem
      exact List.not_mem_nil x hmem
    have hurl : (aggGroup ((rows.filter (fun q => q.url.isSome)).filter
        (fun q => q.url == some k))).url = some k :=
      findSome_id_all_some _ hne hall
    refine ⟨?_, ?_⟩
    · intro u huu
      have hu : u = k := by
        rw [hurl] at huu
        exact (Option.some.inj huu).symm
      rw [hu]
      constructor
      · show ((rows.filter (fun q => q.url.isSome)).filter
            (fun q => q.url == some k)).any (fun q => q.hasApi)
          = (rows.filter (fun x => x.url == some k)).any (fun x => x.hasApi)
        rw [hcoll]
      · show ((rows.filter (fun q => q.url.isSome)).filter
            (fun q => q.url == some k)).any (fun q => q.hasFree)
          = (rows.filter (fun x => x.url == some k)).any (fun x => x.hasFree)
        rw [hcoll]
    · intro hnull
      rw [hurl] at hnull
      exact absurd hnull (by simp)
  · rw [List.mem_map] at h2
    obtain ⟨k, hk, rfl⟩ := h2
    rw [mem_sortByB, mem_dedupFirst, List.mem_filterMap] at hk
    obtain ⟨x, hx, hxk⟩ := hk
    have hdn : x.domain = some k.1 ∧ x.name = some k.2 := by
      cases hd : x.domain with
      | none => rw [hd] at hxk; exact nomatch hxk
      | some d =>
        cases hn : x.name with
        | none => rw [hd, hn] at hxk; exact nomatch hxk
        | some n =>
          rw [hd, hn] at hxk
          have hk2 := Option.some.inj hxk
          rw [← hk2]
          exact ⟨rfl, rfl⟩
    have hmem : x ∈ (rows.filter (fun q => q.url.isNone)).filter
        (fun q => q.domain == some k.1 && q.name == some k.2) := by
      refine List.mem_filter.mpr ⟨hx, ?_⟩
      rw [Bool.and_eq_true]
      exact ⟨beq_iff_eq.mpr hdn.1, beq_iff_eq.mpr hdn.2⟩
    have hallnone : ∀ o ∈ ((rows.filter (fun q => q.url.isNone)).filter
        (fun q => q.domain == some k.1 && q.name == some k.2)).map (fun q => q.url),
        o = none := by
      intro o ho
      rcases List.mem_map.mp ho with ⟨y, hy, rfl⟩
      exact Option.isNone_iff_eq_none.mp
        (List.mem_filter.mp (List.mem_filter.mp hy).1).2
    have hurl : (aggGroup ((rows.filter (fun q => q.url.isNone)).filter
        (fun q => q.domain == some k.1 && q.name == some k.2))).url = none :=
      findSome_id_all_none _ hallnone
    have hne : ∀ (f : SilverRec → Option String),
        ((rows.filter (fun q => q.url.isNone)).filter
          (fun q => q.domain == some k.1 && q.name == some k.2)).map f ≠ [] := by
      intro f hc
      rw [List.map_eq_nil_iff] at hc
      rw [hc] at hmem
      exact List.not_mem_nil x hmem
    have halld : ∀ o ∈ ((rows.filter (fun q => q.url.isNone)).filter
        (fun q => q.domain == some k.1 && q.name == some k.2)).map (fun q => q.domain),
        o = some k.1 := by
      intro o ho
      rcases List.mem_map.mp ho with ⟨y, hy, rfl⟩
      have := (List.mem_filter.mp hy).2
      rw [Bool.and_eq_true] at this
      exact beq_iff_eq.mp this.1
    have halln : ∀ o ∈ ((rows.filter (fun q => q.url.isNone)).filter
        (fun q => q.domain == some k.1 && q.name == some k.2)).map (fun q => q.name),
        o = some k.2 := by
      intro o ho
      rcases List.mem_map.mp ho with ⟨y, hy, rfl⟩
      have := (List.mem_filter.mp hy).2
      rw [Bool.and_eq_true] at this
      exact beq_iff_eq.mp this.2
    have hdom : (aggGroup ((rows.filter (fun q => q.url.isNone)).filter
        (fun q => q.domain == some k.1 && q.name == some k.2))).domain = some k.1 :=
      findSome_id_all_some _ (hne _) halld
    have hname : (aggGroup ((rows.filter (fun q => q.url.isNone)).filter
        (fun q => q.domain == some k.1 && q.name == some k.2))).name = some k.2 :=
      pickLongest_all_eq _ (hne _) halln
    refine ⟨?_, ?_⟩
    · intro u huu
      rw [hurl] at huu
      exact absurd huu (by simp)
    · intro _ d n hd hn
      have hdk : d = k.1 := (Option.some.inj (hdom.symm.trans hd)).symm
      have hnk : n = k.2 := (Option.some.inj (hname.symm.trans hn)).symm
      subst hdk
      subst hnk
      have hcoll2 : (rows.filter (fun q => q.url.isNone)).filter
          (fun q => q.domain == some k.1 && q.name == some k.2)
          = rows.filter (fun x => x.url == (none : Option String) &&
              x.domain == some k.1 && x.name == some k.2) := by
        rw [filter_filter_comb rows]
        refine filter_ext ?_ rows
        intro y
        cases hy : y.url with
        | none => simp [hy]
        | some v => simp [hy]
      constructor
      · show ((rows.filter (fun q => q.url.isNone)).filter
            (fun q => q.domain == some k.1 && q.name == some k.2)).any
            (fun q => q.hasApi) = _
        rw [hcoll2]
      · show ((rows.filter (fun q => q.url.isNone)).filter
            (fun q => q.domain == some k.1 && q.name == some k.2)).any
            (fun q => q.hasFree) = _
        rw [hcoll2]

/-- Witness for c7_merge_or_monotone on a concrete two-row group. -/
theorem c7_witness :
    (GoldRec.mk (some "Tool") (some "u") (some "") [] [] true true (some "d")).hasApi
      = (([⟨some "T", some "u", some "", [], [], true, false, some "d", "s1"⟩,
          ⟨some "Tool", some "u", some "", [], [], false, true, some "d", "s2"⟩]
            : List SilverRec).filter (fun x => x.url == some "u")).any
          (fun x => x.hasApi) :=
  ((c7_merge_or_monotone
    [⟨some "T", some "u", some "", [], [], true, false, some "d", "s1"⟩,
     ⟨some "Tool", some "u", some "", [], [], false, true, some "d", "s2"⟩]
    (GoldRec.mk (some "Tool") (some "u") (some "") [] [] true true (some "d"))
    (by decide)).1 "u" (by decide)).1
